import Mathlib

/-!
A verification model of the SurfaceFlinger HWC buffer cache
(`services/surfaceflinger/CompositionEngine/include/compositionengine/impl/HwcBufferCache.h`).

The repository provides the class declaration, its field layout and its
documentation comments; the method bodies (`HwcBufferCache.cpp`) are not part
of the provided sources.  The operational behaviour of the four methods —
`getHwcBuffer`, `getSlot`, `getLeastRecentlyUsedSlot`, `getCounter` — and of
the constructor is therefore modelled from the specification's description of
the `resolve` operation, its hit/miss cases, the LRU eviction rule (smallest
recency counter, ties broken by lowest index) and the counter issuance rule.

Modelling choices:
* A buffer is identified by reference identity only; we model identities as
  natural numbers (`Buffer := Nat`).
* A weak reference is a stored identity together with an external liveness
  oracle `live : Buffer → Bool`: the weak reference `some r` currently
  resolves exactly when `live r = true`.  The cache never extends a buffer's
  lifetime, so liveness is an input to each operation, not part of the state.
* The shared 64-bit recency counter is modelled as an unbounded `Nat`; the
  specification describes it as monotonically increasing and never reset, and
  wraparound after 2^64 operations is outside the specified behaviour.
* The capacity (the platform constant `BufferQueue::NUM_BUFFER_SLOTS`, also
  outside the provided sources) is kept as a parameter `N`; the slot table is
  a list of length `N`.
-/

/-- A buffer handle, identified purely by reference identity. -/
abbrev Buffer := Nat

/-- One entry of `mBuffers`: a recency counter together with a weak
reference.  `ref = none` models a never-used (empty) slot; `ref = some r`
models a weak reference to the buffer with identity `r`, which currently
resolves only if `r` is still live. -/
structure SlotEntry where
  counter : Nat
  ref : Option Buffer
  deriving Repr, DecidableEq, Inhabited

/-- The mirror cache state: the slot table `mBuffers` (one `SlotEntry` per
slot index) and the shared recency counter `mCounter`. -/
structure HwcBufferCache where
  mBuffers : List SlotEntry
  mCounter : Nat
  deriving Repr, DecidableEq

/-- Modelled from the spec: the identity-match test of the lookup scan (the
body of `HwcBufferCache::getSlot` is not in the provided sources).  A slot
entry matches the queried buffer exactly when its weak reference currently
resolves (the referenced buffer is live) to the same identity as the queried
buffer; stale and never-used slots never match. -/
def matchesBuffer (live : Buffer → Bool) (buffer : Buffer) (e : SlotEntry) : Bool :=
  match e.ref with
  | some r => live r && r == buffer
  | none => false

/-- Modelled from the spec: `HwcBufferCache::getSlot` (body not in the
provided sources) scans all slots for one whose weak reference currently
resolves to the same identity as `buffer`, returning the first matching slot
index, or nothing on a miss. -/
def HwcBufferCache.getSlot (c : HwcBufferCache) (live : Buffer → Bool) (buffer : Buffer) :
    Option Nat :=
  c.mBuffers.findIdx? (matchesBuffer live buffer)

/-- The smallest recency counter occurring in a slot table (0 for the empty
table). -/
def minCounter (l : List SlotEntry) : Nat :=
  ((l.map SlotEntry.counter).min?).getD 0

/-- Modelled from the spec: `HwcBufferCache::getLeastRecentlyUsedSlot` (body
not in the provided sources) selects the eviction target: the slot with the
smallest recency counter, ties broken by lowest slot index. -/
def HwcBufferCache.getLeastRecentlyUsedSlot (c : HwcBufferCache) : Nat :=
  c.mBuffers.findIdx (fun e => e.counter == minCounter c.mBuffers)

/-- Modelled from the spec: `HwcBufferCache::getCounter` (body not in the
provided sources) issues the next counter value from the single internal
strictly increasing counter source: it returns the current value of
`mCounter` and advances `mCounter` by one. -/
def HwcBufferCache.getCounter (c : HwcBufferCache) : Nat × HwcBufferCache :=
  (c.mCounter, { c with mCounter := c.mCounter + 1 })

/-- Modelled from the spec: `HwcBufferCache::getHwcBuffer` (body not in the
provided sources), the `resolve(buffer) -> (slot, transmitBuffer)` operation.
On a hit at slot `s` it stamps `s`'s recency counter with the next counter
value and returns `(s, none)`; on a miss it picks the LRU eviction target
`e`, overwrites `e`'s weak reference with `buffer`, stamps `e`'s recency
counter with the next counter value, and returns `(e, some buffer)`.  The
result triple is (new cache state, outSlot, outBuffer). -/
def HwcBufferCache.getHwcBuffer (c : HwcBufferCache) (live : Buffer → Bool) (buffer : Buffer) :
    HwcBufferCache × Nat × Option Buffer :=
  match c.getSlot live buffer with
  | some s =>
      let issued := c.getCounter
      let old := c.mBuffers.getD s default
      ({ mBuffers := c.mBuffers.set s { old with counter := issued.1 },
         mCounter := issued.2.mCounter }, s, none)
  | none =>
      let e := c.getLeastRecentlyUsedSlot
      let issued := c.getCounter
      ({ mBuffers := c.mBuffers.set e { counter := issued.1, ref := some buffer },
         mCounter := issued.2.mCounter }, e, some buffer)

/-- Modelled from the spec: the `HwcBufferCache` constructor (body not in the
provided sources).  The cache is created empty — every slot never used, with
recency counter 0 and no reference — and the shared counter starts at 1
(`uint64_t mCounter = 1` in the class declaration), a value distinguishable
from "never used". -/
def HwcBufferCache.initial (N : Nat) : HwcBufferCache :=
  { mBuffers := List.replicate N ⟨0, none⟩, mCounter := 1 }

/-- Run a sequence of `getHwcBuffer` calls (one fixed liveness oracle),
collecting the `(outSlot, outBuffer)` results in call order. -/
def HwcBufferCache.runResolve (live : Buffer → Bool) :
    HwcBufferCache → List Buffer → HwcBufferCache × List (Nat × Option Buffer)
  | c, [] => (c, [])
  | c, b :: bs =>
      let r := c.getHwcBuffer live b
      let rest := HwcBufferCache.runResolve live r.1 bs
      (rest.1, r.2 :: rest.2)

/-- Cache states reachable from a freshly constructed cache of capacity `N`
by `getHwcBuffer` calls.  Each call may see a different liveness oracle
(buffers die externally between calls), but per the spec's precondition the
queried buffer itself is live at the time of the call. -/
inductive Reachable (N : Nat) : HwcBufferCache → Prop where
  | init : Reachable N (HwcBufferCache.initial N)
  | step {c : HwcBufferCache} {live : Buffer → Bool} {b : Buffer} :
      Reachable N c → live b = true → Reachable N (c.getHwcBuffer live b).1

/-- The spec's worked example (N = 3): resolve A, B, C, A, D yields slots
0, 1, 2, 0 (hit), 1 (evicting B, the least recently used). -/
theorem specWorkedExample :
    (HwcBufferCache.runResolve (fun _ => true) (HwcBufferCache.initial 3) [10, 11, 12, 10, 13]).2
      = [(0, some 10), (1, some 11), (2, some 12), (0, none), (1, some 13)] := by
  decide

/-! ### Properties of the LRU eviction scan -/

theorem minCounter_le (l : List SlotEntry) (j : Nat) (hj : j < l.length) :
    minCounter l ≤ l[j].counter := by
  rcases hmin : (l.map SlotEntry.counter).min? with _ | a
  · rw [List.min?_eq_none_iff, List.map_eq_nil_iff] at hmin
    subst hmin
    simp at hj
  · have hle := (List.min?_eq_some_iff'.mp hmin).2
    have hmem : l[j].counter ∈ l.map SlotEntry.counter :=
      List.mem_map_of_mem _ (List.getElem_mem hj)
    have := hle _ hmem
    simpa [minCounter, hmin] using this

theorem exists_minCounter (l : List SlotEntry) (h : 0 < l.length) :
    ∃ j, ∃ hj : j < l.length, l[j].counter = minCounter l := by
  rcases hmin : (l.map SlotEntry.counter).min? with _ | a
  · rw [List.min?_eq_none_iff, List.map_eq_nil_iff] at hmin
    subst hmin
    simp at h
  · have hmem := (List.min?_eq_some_iff'.mp hmin).1
    rw [List.mem_map] at hmem
    obtain ⟨e, he, hea⟩ := hmem
    rw [List.mem_iff_getElem] at he
    obtain ⟨j, hj, hje⟩ := he
    exact ⟨j, hj, by simp [minCounter, hmin, hje, hea]⟩

theorem lru_lt_length (c : HwcBufferCache) (h : 0 < c.mBuffers.length) :
    c.getLeastRecentlyUsedSlot < c.mBuffers.length := by
  obtain ⟨j, hj, hje⟩ := exists_minCounter c.mBuffers h
  exact List.findIdx_lt_length_of_exists
    ⟨c.mBuffers[j], List.getElem_mem hj, by simpa using hje⟩

theorem lru_counter (c : HwcBufferCache) (h : 0 < c.mBuffers.length) :
    (c.mBuffers.getD c.getLeastRecentlyUsedSlot default).counter
      = minCounter c.mBuffers := by
  have hlt := lru_lt_length c h
  rw [List.getD_eq_getElem _ _ hlt]
  have h' : c.mBuffers.findIdx (fun e => e.counter == minCounter c.mBuffers)
      < c.mBuffers.length := hlt
  have hp := List.findIdx_getElem (w := h')
  simp only [beq_iff_eq] at hp
  exact hp

theorem lru_min (c : HwcBufferCache) (h : 0 < c.mBuffers.length) (j : Nat)
    (hj : j < c.mBuffers.length) :
    (c.mBuffers.getD c.getLeastRecentlyUsedSlot default).counter
      ≤ (c.mBuffers.getD j default).counter := by
  rw [lru_counter c h, List.getD_eq_getElem _ _ hj]
  exact minCounter_le c.mBuffers j hj

theorem lru_tiebreak (c : HwcBufferCache) (h : 0 < c.mBuffers.length) (j : Nat)
    (hj : j < c.mBuffers.length) (hjlru : j < c.getLeastRecentlyUsedSlot) :
    (c.mBuffers.getD c.getLeastRecentlyUsedSlot default).counter
      < (c.mBuffers.getD j default).counter := by
  have hjlru' : j < c.mBuffers.findIdx (fun e => e.counter == minCounter c.mBuffers) := hjlru
  have hne := List.not_of_lt_findIdx hjlru'
  simp only [beq_eq_false_iff_ne, ne_eq] at hne
  have hle := minCounter_le c.mBuffers j hj
  rw [lru_counter c h, List.getD_eq_getElem _ _ hj]
  exact lt_of_le_of_ne hle (fun heq => hne heq.symm)

/-! ### Unfolding lemmas for the two cases of `getHwcBuffer` -/

theorem getHwcBuffer_miss (c : HwcBufferCache) (live : Buffer → Bool) (b : Buffer)
    (hmiss : c.getSlot live b = none) :
    c.getHwcBuffer live b =
      ({ mBuffers := c.mBuffers.set c.getLeastRecentlyUsedSlot ⟨c.mCounter, some b⟩,
         mCounter := c.mCounter + 1 }, c.getLeastRecentlyUsedSlot, some b) := by
  simp [HwcBufferCache.getHwcBuffer, hmiss, HwcBufferCache.getCounter]

theorem getHwcBuffer_hit_eq (c : HwcBufferCache) (live : Buffer → Bool) (b : Buffer) (s : Nat)
    (hhit : c.getSlot live b = some s) :
    c.getHwcBuffer live b =
      ({ mBuffers := c.mBuffers.set s ⟨c.mCounter, (c.mBuffers.getD s default).ref⟩,
         mCounter := c.mCounter + 1 }, s, none) := by
  simp [HwcBufferCache.getHwcBuffer, hhit, HwcBufferCache.getCounter]

theorem getSlot_lt_length (c : HwcBufferCache) (live : Buffer → Bool) (b : Buffer) (s : Nat)
    (hhit : c.getSlot live b = some s) : s < c.mBuffers.length := by
  have h' : c.mBuffers.findIdx? (matchesBuffer live b) = some s := hhit
  exact (List.findIdx?_eq_some_iff_findIdx_eq.mp h').1

/-! ### Claim theorems about a single call -/

/-- C1: on a miss (no slot's weak reference resolves to the queried buffer),
`getHwcBuffer` selects as eviction target the slot with the smallest recency
counter, ties broken by the lowest slot index; it overwrites that slot's weak
reference with the buffer, stamps its recency counter with the issued counter
value, and returns that slot index together with the buffer as the payload to
transmit. -/
theorem C1_miss_selects_lru_slot (c : HwcBufferCache) (live : Buffer → Bool) (b : Buffer)
    (hN : 0 < c.mBuffers.length) (hmiss : c.getSlot live b = none) :
    (c.getHwcBuffer live b).2.2 = some b ∧
    (c.getHwcBuffer live b).2.1 < c.mBuffers.length ∧
    (∀ j, j < c.mBuffers.length →
      (c.mBuffers.getD (c.getHwcBuffer live b).2.1 default).counter
        ≤ (c.mBuffers.getD j default).counter) ∧
    (∀ j, j < (c.getHwcBuffer live b).2.1 →
      (c.mBuffers.getD (c.getHwcBuffer live b).2.1 default).counter
        < (c.mBuffers.getD j default).counter) ∧
    (c.getHwcBuffer live b).1.mBuffers.getD (c.getHwcBuffer live b).2.1 default
      = ⟨c.mCounter, some b⟩ ∧
    (c.getHwcBuffer live b).1.mCounter = c.mCounter + 1 := by
  rw [getHwcBuffer_miss c live b hmiss]
  have he : c.getLeastRecentlyUsedSlot < c.mBuffers.length := lru_lt_length c hN
  refine ⟨rfl, he, ?_, ?_, ?_, rfl⟩
  · intro j hj
    exact lru_min c hN j hj
  · intro j hj
    have hjlen : j < c.mBuffers.length := lt_trans hj he
    exact lru_tiebreak c hN j hjlen hj
  · have he' : c.getLeastRecentlyUsedSlot
        < (c.mBuffers.set c.getLeastRecentlyUsedSlot ⟨c.mCounter, some b⟩).length := by
      simpa using he
    rw [List.getD_eq_getElem _ _ he', List.getElem_set_self]

/-- C3: every `getHwcBuffer` call, hit or miss, advances the shared internal
counter by exactly one; it is never decremented and never reset. -/
theorem C3_counter_strictly_increases (c : HwcBufferCache) (live : Buffer → Bool) (b : Buffer) :
    (c.getHwcBuffer live b).1.mCounter = c.mCounter + 1 := by
  cases h : c.getSlot live b with
  | none => rw [getHwcBuffer_miss c live b h]
  | some s => rw [getHwcBuffer_hit_eq c live b s h]

/-- C7: `resolve` is total over non-null live buffers: it has no failure
outcome, always returns a slot index in [0, N) (the capacity is preserved),
and its payload is either nothing (hit) or exactly the queried buffer (miss);
capacity exhaustion is handled by eviction, never by an error. -/
theorem C7_resolve_total (c : HwcBufferCache) (live : Buffer → Bool) (b : Buffer)
    (hN : 0 < c.mBuffers.length) :
    (c.getHwcBuffer live b).2.1 < c.mBuffers.length ∧
    (c.getHwcBuffer live b).1.mBuffers.length = c.mBuffers.length ∧
    ((c.getHwcBuffer live b).2.2 = none ∨ (c.getHwcBuffer live b).2.2 = some b) := by
  cases h : c.getSlot live b with
  | none =>
      rw [getHwcBuffer_miss c live b h]
      exact ⟨lru_lt_length c hN, by simp, Or.inr rfl⟩
  | some s =>
      rw [getHwcBuffer_hit_eq c live b s h]
      exact ⟨getSlot_lt_length c live b s h, by simp, Or.inl rfl⟩

/-- C8: each `getHwcBuffer` call mutates at most the returned slot's entry and
the shared counter: every other slot entry is unchanged, the slot table length
is preserved, and the counter advances by one. -/
theorem C8_frame_effect (c : HwcBufferCache) (live : Buffer → Bool) (b : Buffer) (j : Nat)
    (hj : j < c.mBuffers.length) (hne : j ≠ (c.getHwcBuffer live b).2.1) :
    (c.getHwcBuffer live b).1.mBuffers.getD j default = c.mBuffers.getD j default ∧
    (c.getHwcBuffer live b).1.mBuffers.length = c.mBuffers.length ∧
    (c.getHwcBuffer live b).1.mCounter = c.mCounter + 1 := by
  cases h : c.getSlot live b with
  | none =>
      rw [getHwcBuffer_miss c live b h] at hne ⊢
      have hj' : j < (c.mBuffers.set c.getLeastRecentlyUsedSlot ⟨c.mCounter, some b⟩).length := by
        simpa using hj
      refine ⟨?_, by simp, rfl⟩
      rw [List.getD_eq_getElem _ _ hj', List.getD_eq_getElem _ _ hj,
        List.getElem_set_ne (Ne.symm hne)]
  | some s =>
      rw [getHwcBuffer_hit_eq c live b s h] at hne ⊢
      have hj' : j < (c.mBuffers.set s ⟨c.mCounter, (c.mBuffers.getD s default).ref⟩).length := by
        simpa using hj
      refine ⟨?_, by simp, rfl⟩
      rw [List.getD_eq_getElem _ _ hj', List.getD_eq_getElem _ _ hj,
        List.getElem_set_ne (Ne.symm hne)]

/-! ### The lookup scan: hits and stale slots -/

theorem getSlot_eq_of_unique (c : HwcBufferCache) (live : Buffer → Bool) (b : Buffer) (s : Nat)
    (hs : s < c.mBuffers.length) (href : (c.mBuffers[s]).ref = some b)
    (hlive : live b = true)
    (huniq : ∀ j, (hj : j < c.mBuffers.length) → j ≠ s → (c.mBuffers[j]).ref ≠ some b) :
    c.getSlot live b = some s := by
  show c.mBuffers.findIdx? (matchesBuffer live b) = some s
  rw [List.findIdx?_eq_some_iff_findIdx_eq]
  refine ⟨hs, ?_⟩
  rw [List.findIdx_eq hs]
  constructor
  · simp [matchesBuffer, href, hlive]
  · intro j hji
    have hj : j < c.mBuffers.length := lt_trans hji hs
    have hub := huniq j hj (Nat.ne_of_lt hji)
    cases hrj : (c.mBuffers[j]).ref with
    | none => simp [matchesBuffer, hrj]
    | some r =>
        have hrb : r ≠ b := fun hrb => hub (by rw [hrj, hrb])
        simp [matchesBuffer, hrj, hrb]

theorem getSlot_ne_stale (c : HwcBufferCache) (live : Buffer → Bool) (i : Nat) (r : Buffer)
    (hi : i < c.mBuffers.length) (href : (c.mBuffers[i]).ref = some r)
    (hdead : live r = false) (b : Buffer) : c.getSlot live b ≠ some i := by
  intro h
  have h' : c.mBuffers.findIdx? (matchesBuffer live b) = some i := h
  have h2 := (List.findIdx?_eq_some_iff_findIdx_eq.mp h').2
  obtain ⟨hp, -⟩ := (List.findIdx_eq hi).mp h2
  simp [matchesBuffer, href, hdead] at hp

theorem lru_eq_of_strict_min (c : HwcBufferCache) (i : Nat) (hi : i < c.mBuffers.length)
    (hmin : ∀ j, (hj : j < c.mBuffers.length) → j ≠ i →
      (c.mBuffers[i]).counter < (c.mBuffers[j]).counter) :
    c.getLeastRecentlyUsedSlot = i := by
  have h0 : 0 < c.mBuffers.length := lt_of_le_of_lt (Nat.zero_le i) hi
  obtain ⟨j, hj, hje⟩ := exists_minCounter c.mBuffers h0
  have hmc : minCounter c.mBuffers = (c.mBuffers[i]).counter := by
    by_cases hji : j = i
    · subst hji
      exact hje.symm
    · have h1 := hmin j hj hji
      have h2 := minCounter_le c.mBuffers i hi
      omega
  show c.mBuffers.findIdx (fun e => e.counter == minCounter c.mBuffers) = i
  rw [List.findIdx_eq hi]
  constructor
  · simp [hmc]
  · intro k hki
    have hk : k < c.mBuffers.length := lt_trans hki hi
    have h1 := hmin k hk (Nat.ne_of_lt hki)
    rw [beq_eq_false_iff_ne, ne_eq]
    omega

/-! ### The counter dominance invariant on reachable states -/

/-- Every slot's recorded recency counter is strictly below the shared
counter (every issued value was the shared counter's value at issue time). -/
def CountersBelow (c : HwcBufferCache) : Prop :=
  ∀ j, (hj : j < c.mBuffers.length) → (c.mBuffers[j]).counter < c.mCounter

theorem countersBelow_initial (N : Nat) : CountersBelow (HwcBufferCache.initial N) := by
  intro j hj
  simp only [HwcBufferCache.initial] at hj ⊢
  rw [List.getElem_replicate]
  exact Nat.zero_lt_one

theorem countersBelow_step (c : HwcBufferCache) (live : Buffer → Bool) (b : Buffer)
    (h : CountersBelow c) : CountersBelow (c.getHwcBuffer live b).1 := by
  cases hs : c.getSlot live b with
  | none =>
      rw [getHwcBuffer_miss c live b hs]
      intro j hj
      have hj' : j < c.mBuffers.length := by simpa using hj
      rw [List.getElem_set]
      split
      · exact Nat.lt_succ_self _
      · exact lt_trans (h j hj') (Nat.lt_succ_self _)
  | some s =>
      rw [getHwcBuffer_hit_eq c live b s hs]
      intro j hj
      have hj' : j < c.mBuffers.length := by simpa using hj
      rw [List.getElem_set]
      split
      · exact Nat.lt_succ_self _
      · exact lt_trans (h j hj') (Nat.lt_succ_self _)

theorem reachable_countersBelow (N : Nat) (c : HwcBufferCache) (h : Reachable N c) :
    CountersBelow c := by
  induction h with
  | init => exact countersBelow_initial N
  | step hc hlive ih => exact countersBelow_step _ _ _ ih

/-- C2: for a buffer `b` currently cached in slot `s` — the slot's weak
reference still resolves to `b` and no other slot holds `b` — `getHwcBuffer`
is a hit: it returns the same slot `s` with no payload, and stamps `s`'s
recency counter with the issued counter value while advancing the shared
counter by one. -/
theorem C2_hit_returns_same_slot (c : HwcBufferCache) (live : Buffer → Bool) (b : Buffer)
    (s : Nat) (hs : s < c.mBuffers.length)
    (href : (c.mBuffers.getD s default).ref = some b)
    (hlive : live b = true)
    (huniq : ∀ j, j < c.mBuffers.length → j ≠ s → (c.mBuffers.getD j default).ref ≠ some b) :
    (c.getHwcBuffer live b).2.1 = s ∧
    (c.getHwcBuffer live b).2.2 = none ∧
    (c.getHwcBuffer live b).1.mBuffers.getD s default = ⟨c.mCounter, some b⟩ ∧
    (c.getHwcBuffer live b).1.mCounter = c.mCounter + 1 := by
  have href' : (c.mBuffers[s]).ref = some b := by
    rw [← List.getD_eq_getElem c.mBuffers default hs]
    exact href
  have huniq' : ∀ j, (hj : j < c.mBuffers.length) → j ≠ s →
      (c.mBuffers[j]).ref ≠ some b := by
    intro j hj hjs
    rw [← List.getD_eq_getElem c.mBuffers default hj]
    exact huniq j hj hjs
  have hhit : c.getSlot live b = some s := getSlot_eq_of_unique c live b s hs href' hlive huniq'
  rw [getHwcBuffer_hit_eq c live b s hhit]
  refine ⟨rfl, rfl, ?_, rfl⟩
  have hs' : s < (c.mBuffers.set s
      (⟨c.mCounter, (c.mBuffers.getD s default).ref⟩ : SlotEntry)).length := by
    simpa using hs
  rw [List.getD_eq_getElem _ _ hs', List.getElem_set_self, href]

/-- C5: in any reachable cache state, resolving an already-cached buffer (a
hit at slot `s`) stamps that slot's recency counter with a value strictly
greater than every other slot's counter — the new maximum — so among the
slots it becomes the last candidate for LRU eviction (in particular the next
eviction scan does not pick `s`). -/
theorem lru_ne_of_counter_gt (c : HwcBufferCache) (s j : Nat)
    (hs : s < c.mBuffers.length) (hj : j < c.mBuffers.length)
    (hlt : (c.mBuffers.getD j default).counter < (c.mBuffers.getD s default).counter) :
    c.getLeastRecentlyUsedSlot ≠ s := by
  intro hlru
  have h0 : 0 < c.mBuffers.length := lt_of_le_of_lt (Nat.zero_le s) hs
  have hlru_lt := lru_lt_length c h0
  have hct := lru_counter c h0
  rw [hlru] at hct
  have hminj : minCounter c.mBuffers ≤ (c.mBuffers.getD j default).counter := by
    rw [List.getD_eq_getElem _ _ hj]
    exact minCounter_le c.mBuffers j hj
  omega

/-- C5: in any reachable cache state, resolving an already-cached buffer (a
hit at slot `s`) stamps that slot's recency counter with a value strictly
greater than every other slot's counter — the new maximum — so among the
slots it becomes the last candidate for LRU eviction (in particular the next
eviction scan does not pick `s`). -/
theorem C5_hit_refreshes_to_maximum (N : Nat) (c : HwcBufferCache) (live : Buffer → Bool)
    (b : Buffer) (s : Nat) (hreach : Reachable N c) (hhit : c.getSlot live b = some s) :
    (∀ j, j < c.mBuffers.length → j ≠ s →
      ((c.getHwcBuffer live b).1.mBuffers.getD j default).counter
        < ((c.getHwcBuffer live b).1.mBuffers.getD s default).counter) ∧
    (2 ≤ c.mBuffers.length →
      (c.getHwcBuffer live b).1.getLeastRecentlyUsedSlot ≠ s) := by
  have hs := getSlot_lt_length c live b s hhit
  have hcb := reachable_countersBelow N c hreach
  have hs' : s < (c.mBuffers.set s
      (⟨c.mCounter, (c.mBuffers.getD s default).ref⟩ : SlotEntry)).length := by
    simpa using hs
  have hpart1 : ∀ j, j < c.mBuffers.length → j ≠ s →
      ((c.getHwcBuffer live b).1.mBuffers.getD j default).counter
        < ((c.getHwcBuffer live b).1.mBuffers.getD s default).counter := by
    intro j hj hjs
    rw [getHwcBuffer_hit_eq c live b s hhit]
    have hj' : j < (c.mBuffers.set s
        (⟨c.mCounter, (c.mBuffers.getD s default).ref⟩ : SlotEntry)).length := by
      simpa using hj
    rw [List.getD_eq_getElem _ _ hj', List.getD_eq_getElem _ _ hs',
      List.getElem_set_self, List.getElem_set_ne (fun h => hjs h.symm)]
    exact hcb j hj
  refine ⟨hpart1, ?_⟩
  intro hlen
  have hjs : (if s = 0 then 1 else 0) ≠ s := by
    split <;> omega
  have hjlen : (if s = 0 then 1 else 0) < c.mBuffers.length := by
    split <;> omega
  have hlt := hpart1 _ hjlen hjs
  have hslen : s < (c.getHwcBuffer live b).1.mBuffers.length := by
    rw [getHwcBuffer_hit_eq c live b s hhit]
    simpa using hs
  have hjlen' : (if s = 0 then 1 else 0) < (c.getHwcBuffer live b).1.mBuffers.length := by
    rw [getHwcBuffer_hit_eq c live b s hhit]
    simpa using hjlen
  exact lru_ne_of_counter_gt (c.getHwcBuffer live b).1 s _ hslen hjlen' hlt

/-- C6: a slot whose weak reference has gone stale (the referenced buffer was
destroyed externally) never matches any queried buffer in the lookup scan,
but it still participates in LRU eviction with its last recorded counter
value: if its counter is strictly smallest, a missed new buffer is booked
into exactly that slot, with the buffer as the payload to transmit. -/
theorem C6_stale_slot_unmatchable_but_evictable (c : HwcBufferCache) (live : Buffer → Bool)
    (i : Nat) (r : Buffer) (hi : i < c.mBuffers.length)
    (href : (c.mBuffers.getD i default).ref = some r)
    (hdead : live r = false) :
    (∀ b, c.getSlot live b ≠ some i) ∧
    (∀ b, (∀ j, j < c.mBuffers.length → j ≠ i →
        (c.mBuffers.getD i default).counter < (c.mBuffers.getD j default).counter) →
      c.getSlot live b = none →
      (c.getHwcBuffer live b).2.1 = i ∧
      (c.getHwcBuffer live b).1.mBuffers.getD i default = ⟨c.mCounter, some b⟩ ∧
      (c.getHwcBuffer live b).2.2 = some b) := by
  have href' : (c.mBuffers[i]).ref = some r := by
    rw [← List.getD_eq_getElem c.mBuffers default hi]
    exact href
  constructor
  · exact fun b => getSlot_ne_stale c live i r hi href' hdead b
  · intro b hmin hmiss
    have hmin' : ∀ j, (hj : j < c.mBuffers.length) → j ≠ i →
        (c.mBuffers[i]).counter < (c.mBuffers[j]).counter := by
      intro j hj hji
      rw [← List.getD_eq_getElem c.mBuffers default hi, ← List.getD_eq_getElem c.mBuffers default hj]
      exact hmin j hj hji
    have hlru : c.getLeastRecentlyUsedSlot = i := lru_eq_of_strict_min c i hi hmin'
    rw [getHwcBuffer_miss c live b hmiss, hlru]
    refine ⟨rfl, ?_, rfl⟩
    have hi' : i < (c.mBuffers.set i (⟨c.mCounter, some b⟩ : SlotEntry)).length := by
      simpa using hi
    rw [List.getD_eq_getElem _ _ hi', List.getElem_set_self]

/-! ### No double booking (C9) -/

/-- At most one slot holds a weak reference with any given identity: the
cache never books the same buffer into two slots. -/
def NoDoubleBooking (c : HwcBufferCache) : Prop :=
  ∀ i j, (hi : i < c.mBuffers.length) → (hj : j < c.mBuffers.length) → i ≠ j →
    ∀ r : Buffer, ¬(c.mBuffers[i].ref = some r ∧ c.mBuffers[j].ref = some r)

theorem getSlot_none_not_mem (c : HwcBufferCache) (live : Buffer → Bool) (b : Buffer)
    (hmiss : c.getSlot live b = none) (hlive : live b = true) :
    ∀ k, (hk : k < c.mBuffers.length) → c.mBuffers[k].ref ≠ some b := by
  intro k hk hrefk
  have h' : c.mBuffers.findIdx? (matchesBuffer live b) = none := hmiss
  rw [List.findIdx?_eq_none_iff] at h'
  have := h' c.mBuffers[k] (List.getElem_mem hk)
  simp [matchesBuffer, hrefk, hlive] at this

theorem noDoubleBooking_initial (N : Nat) : NoDoubleBooking (HwcBufferCache.initial N) := by
  rintro i j hi hj hij r ⟨hri, hrj⟩
  simp only [HwcBufferCache.initial] at hri
  rw [List.getElem_replicate] at hri
  simp at hri

theorem noDoubleBooking_step (c : HwcBufferCache) (live : Buffer → Bool) (b : Buffer)
    (hlive : live b = true) (h : NoDoubleBooking c) :
    NoDoubleBooking (c.getHwcBuffer live b).1 := by
  cases hs : c.getSlot live b with
  | some s =>
      rw [getHwcBuffer_hit_eq c live b s hs]
      rintro i j hi hj hij r ⟨hri, hrj⟩
      have hi' : i < c.mBuffers.length := by simpa using hi
      have hj' : j < c.mBuffers.length := by simpa using hj
      rw [List.getElem_set] at hri hrj
      have hs' := getSlot_lt_length c live b s hs
      by_cases hie : s = i
      · rw [if_pos hie] at hri
        subst hie
        rw [if_neg hij] at hrj
        rw [List.getD_eq_getElem _ _ hs'] at hri
        exact h s j hs' hj' hij r ⟨hri, hrj⟩
      · rw [if_neg hie] at hri
        by_cases hje : s = j
        · rw [if_pos hje] at hrj
          subst hje
          rw [List.getD_eq_getElem _ _ hs'] at hrj
          exact h i s hi' hs' hij r ⟨hri, hrj⟩
        · rw [if_neg hje] at hrj
          exact h i j hi' hj' hij r ⟨hri, hrj⟩
  | none =>
      rw [getHwcBuffer_miss c live b hs]
      rintro i j hi hj hij r ⟨hri, hrj⟩
      have hi' : i < c.mBuffers.length := by simpa using hi
      have hj' : j < c.mBuffers.length := by simpa using hj
      have hnb := getSlot_none_not_mem c live b hs hlive
      rw [List.getElem_set] at hri hrj
      by_cases hie : c.getLeastRecentlyUsedSlot = i
      · rw [if_pos hie] at hri
        have hrb : some b = some r := hri
        rw [if_neg (fun hh => hij ((hie.symm.trans hh)))] at hrj
        exact hnb j hj' (hrj.trans hrb.symm)
      · rw [if_neg hie] at hri
        by_cases hje : c.getLeastRecentlyUsedSlot = j
        · rw [if_pos hje] at hrj
          have hrb : some b = some r := hrj
          exact hnb i hi' (hri.trans hrb.symm)
        · rw [if_neg hje] at hrj
          exact h i j hi' hj' hij r ⟨hri, hrj⟩

theorem reachable_noDoubleBooking (N : Nat) (c : HwcBufferCache) (h : Reachable N c) :
    NoDoubleBooking c := by
  induction h with
  | init => exact noDoubleBooking_initial N
  | step hc hlive ih => exact noDoubleBooking_step _ _ _ hlive ih

/-- C9: in every cache state reachable from the empty cache by resolve
calls, at most one slot holds a weak reference that resolves to any given
buffer; no call ever books the same buffer into two slots. -/
theorem C9_no_double_booking (N : Nat) (c : HwcBufferCache) (hreach : Reachable N c)
    (i j : Nat) (hi : i < c.mBuffers.length) (hj : j < c.mBuffers.length) (hij : i ≠ j)
    (r : Buffer) :
    ¬((c.mBuffers.getD i default).ref = some r ∧ (c.mBuffers.getD j default).ref = some r) := by
  rw [List.getD_eq_getElem _ _ hi, List.getD_eq_getElem _ _ hj]
  exact reachable_noDoubleBooking N c hreach i j hi hj hij r

/-! ### Filling an empty cache with distinct buffers (C4, C10) -/

/-- The slot table after resolving the distinct buffers `bs` (in order) into
an empty cache of capacity `N`: buffer `bs[i]` sits in slot `i` with recency
counter `i + 1`; the remaining `N - bs.length` slots are untouched. -/
def filledBuffers (N : Nat) (bs : List Buffer) : List SlotEntry :=
  (bs.enum.map (fun p => (⟨p.1 + 1, some p.2⟩ : SlotEntry))) ++
    List.replicate (N - bs.length) ⟨0, none⟩

/-- The cache state after resolving the distinct buffers `bs` into an empty
cache of capacity `N`: the filled slot table, with the shared counter
advanced once per call. -/
def filledCache (N : Nat) (bs : List Buffer) : HwcBufferCache :=
  { mBuffers := filledBuffers N bs, mCounter := bs.length + 1 }

theorem filledCache_nil (N : Nat) : filledCache N [] = HwcBufferCache.initial N := rfl

theorem filledBuffers_length (N : Nat) (bs : List Buffer) (h : bs.length ≤ N) :
    (filledBuffers N bs).length = N := by
  simp [filledBuffers, List.enum_length]
  omega

theorem filledBuffers_getElem_left (N : Nat) (bs : List Buffer) (i : Nat) (hi : i < bs.length)
    (hlen : i < (filledBuffers N bs).length) :
    (filledBuffers N bs)[i] = (⟨i + 1, some bs[i]⟩ : SlotEntry) := by
  simp only [filledBuffers]
  rw [List.getElem_append_left (by simpa [List.enum_length] using hi)]
  rw [List.getElem_map, List.getElem_enum]

theorem filledBuffers_getElem_right (N : Nat) (bs : List Buffer)
    (hlen : bs.length < (filledBuffers N bs).length) :
    (filledBuffers N bs)[bs.length] = (⟨0, none⟩ : SlotEntry) := by
  simp only [filledBuffers]
  rw [List.getElem_append_right (by simp [List.enum_length])]
  rw [List.getElem_replicate]

theorem filled_getSlot_none (N : Nat) (bs : List Buffer) (live : Buffer → Bool) (b : Buffer)
    (hb : b ∉ bs) : (filledCache N bs).getSlot live b = none := by
  show (filledBuffers N bs).findIdx? (matchesBuffer live b) = none
  rw [List.findIdx?_eq_none_iff]
  intro x hx
  rcases List.mem_append.mp hx with hx | hx
  · rw [List.mem_map] at hx
    obtain ⟨p, hp, hpx⟩ := hx
    have hmem : p.2 ∈ bs := List.snd_mem_of_mem_enum hp
    have hne : p.2 ≠ b := fun hh => hb (hh ▸ hmem)
    subst hpx
    simp [matchesBuffer, hne]
  · have hx' := List.eq_of_mem_replicate hx
    subst hx'
    simp [matchesBuffer]

theorem filled_minCounter (N : Nat) (bs : List Buffer) (h : bs.length < N) :
    minCounter (filledBuffers N bs) = 0 := by
  have hlen : bs.length < (filledBuffers N bs).length := by
    rw [filledBuffers_length N bs (le_of_lt h)]
    exact h
  have hz := filledBuffers_getElem_right N bs hlen
  have hle := minCounter_le (filledBuffers N bs) bs.length hlen
  rw [hz] at hle
  simpa using hle

theorem filled_lru (N : Nat) (bs : List Buffer) (h : bs.length < N) :
    (filledCache N bs).getLeastRecentlyUsedSlot = bs.length := by
  have hlen : bs.length < (filledBuffers N bs).length := by
    rw [filledBuffers_length N bs (le_of_lt h)]
    exact h
  show (filledBuffers N bs).findIdx
      (fun e => e.counter == minCounter (filledBuffers N bs)) = bs.length
  rw [List.findIdx_eq hlen]
  constructor
  · rw [filledBuffers_getElem_right N bs hlen, filled_minCounter N bs h]
    rfl
  · intro j hj
    have hj' : j < (filledBuffers N bs).length := lt_trans hj hlen
    rw [filledBuffers_getElem_left N bs j hj hj', filled_minCounter N bs h]
    simp

theorem getHwcBuffer_filled_step (N : Nat) (bs : List Buffer) (live : Buffer → Bool)
    (b : Buffer) (hlen : bs.length < N) (hb : b ∉ bs) :
    (filledCache N bs).getHwcBuffer live b
      = (filledCache N (bs ++ [b]), bs.length, some b) := by
  have hmiss := filled_getSlot_none N bs live b hb
  rw [getHwcBuffer_miss _ _ _ hmiss, filled_lru N bs hlen]
  have hml : (bs.enum.map (fun p => (⟨p.1 + 1, some p.2⟩ : SlotEntry))).length = bs.length := by
    simp [List.enum_length]
  have hbuf : (filledBuffers N bs).set bs.length
      (⟨(filledCache N bs).mCounter, some b⟩ : SlotEntry) = filledBuffers N (bs ++ [b]) := by
    show (filledBuffers N bs).set bs.length
      (⟨bs.length + 1, some b⟩ : SlotEntry) = filledBuffers N (bs ++ [b])
    simp only [filledBuffers]
    rw [List.set_append, if_neg (by simp [List.enum_length])]
    rw [List.enum_append, List.enumFrom_cons, List.map_append]
    have hrep : N - bs.length = (N - (bs.length + 1)) + 1 := by omega
    rw [hml, Nat.sub_self, hrep, List.replicate_succ, List.set_cons_zero]
    simp [List.length_append]
  have hcnt : (filledCache N bs).mCounter + 1 = (bs ++ [b]).length + 1 := by
    simp [filledCache, List.length_append]
  refine Prod.ext ?_ rfl
  show (⟨(filledBuffers N bs).set bs.length
      (⟨(filledCache N bs).mCounter, some b⟩ : SlotEntry),
      (filledCache N bs).mCounter + 1⟩ : HwcBufferCache) = filledCache N (bs ++ [b])
  rw [hbuf, hcnt]
  rfl

theorem runResolve_filled (N : Nat) (live : Buffer → Bool) :
    ∀ (bs pre : List Buffer), (pre ++ bs).Nodup → (pre ++ bs).length ≤ N →
    HwcBufferCache.runResolve live (filledCache N pre) bs
      = (filledCache N (pre ++ bs),
         (List.range' pre.length bs.length).zip (bs.map some)) := by
  intro bs
  induction bs with
  | nil =>
      intro pre hnd hlen
      simp [HwcBufferCache.runResolve]
  | cons b bs ih =>
      intro pre hnd hlen
      have hb : b ∉ pre := by
        have h2 := List.nodup_middle.mp hnd
        have h3 := (List.nodup_cons.mp h2).1
        intro hmem
        exact h3 (List.mem_append_left _ hmem)
      have hlt : pre.length < N := by
        have := hlen
        simp [List.length_append] at this
        omega
      have hnd' : ((pre ++ [b]) ++ bs).Nodup := by
        rw [List.append_assoc]
        simpa using hnd
      have hlen' : ((pre ++ [b]) ++ bs).length ≤ N := by
        rw [List.append_assoc]
        simpa [List.length_append] using hlen
      have ih' := ih (pre ++ [b]) hnd' hlen'
      simp only [HwcBufferCache.runResolve, getHwcBuffer_filled_step N pre live b hlt hb]
      rw [ih']
      have happ : (pre ++ [b]) ++ bs = pre ++ b :: bs := by
        rw [List.append_assoc]
        rfl
      rw [happ]
      simp [List.length_append, List.range'_succ]

/-- C4: starting from an empty cache of capacity N, resolving at most N
distinct live buffers assigns pairwise distinct slot indices, and no cached
live buffer is ever evicted during the sequence: afterwards every resolved
buffer is still cached in its own slot, so no eviction of a cached live
buffer can occur until an (N+1)-th distinct buffer is resolved. -/
theorem C4_capacity_no_eviction (N : Nat) (live : Buffer → Bool) (bs : List Buffer)
    (hnd : bs.Nodup) (_hlive : ∀ x ∈ bs, live x = true) (hlen : bs.length ≤ N) :
    ((HwcBufferCache.runResolve live (HwcBufferCache.initial N) bs).2.map Prod.fst).Nodup ∧
    (∀ i, (hi : i < bs.length) →
      (HwcBufferCache.runResolve live (HwcBufferCache.initial N) bs).1.mBuffers.getD i default
        = (⟨i + 1, some bs[i]⟩ : SlotEntry)) := by
  have hrun := runResolve_filled N live bs [] (by simpa using hnd) (by simpa using hlen)
  rw [filledCache_nil] at hrun
  have h1 : (HwcBufferCache.runResolve live (HwcBufferCache.initial N) bs).1
      = filledCache N bs := by
    rw [hrun]
    rfl
  have h2 : (HwcBufferCache.runResolve live (HwcBufferCache.initial N) bs).2
      = (List.range' 0 bs.length).zip (bs.map some) := by
    rw [hrun]
    rfl
  constructor
  · rw [h2, List.map_fst_zip (List.range' 0 bs.length) (bs.map some) (by simp)]
    exact List.nodup_range' 0 bs.length
  · intro i hi
    rw [h1]
    have hflen : i < (filledBuffers N bs).length := by
      rw [filledBuffers_length N bs hlen]
      omega
    show (filledBuffers N bs).getD i default = _
    rw [List.getD_eq_getElem _ _ hflen]
    exact filledBuffers_getElem_left N bs i hi hflen

/-- C10: a freshly constructed cache has shared counter 1 and every slot
counter 0 with no reference, so every issued counter value exceeds any
never-used slot's counter; consequently the first `bs.length ≤ N` distinct
live buffers resolved from empty are assigned slots 0, 1, 2, ... in exactly
that order (all empty slots tie at counter zero and the lowest index wins),
each returned together with the buffer as payload. -/
theorem C10_fresh_cache_fill_order (N : Nat) (live : Buffer → Bool) (bs : List Buffer) :
    (HwcBufferCache.initial N).mCounter = 1 ∧
    (∀ i, i < N → (HwcBufferCache.initial N).mBuffers.getD i default
      = (⟨0, none⟩ : SlotEntry)) ∧
    (bs.Nodup → (∀ x ∈ bs, live x = true) → bs.length ≤ N →
      (HwcBufferCache.runResolve live (HwcBufferCache.initial N) bs).2
        = (List.range bs.length).zip (bs.map some)) := by
  refine ⟨rfl, ?_, ?_⟩
  · intro i hi
    show (List.replicate N (⟨0, none⟩ : SlotEntry)).getD i default = _
    rw [List.getD_eq_getElem _ _ (by simpa using hi), List.getElem_replicate]
  · intro hnd hlive hlen
    have hrun := runResolve_filled N live bs [] (by simpa using hnd) (by simpa using hlen)
    rw [filledCache_nil] at hrun
    rw [List.range_eq_range']
    rw [hrun]
    rfl

/-! ### Concrete witnesses -/

/-- Witness for C1: an empty two-slot cache misses buffer 7 and the call
transmits the buffer. -/
theorem C1_witness :
    0 < (HwcBufferCache.initial 2).mBuffers.length ∧
    (HwcBufferCache.initial 2).getSlot (fun _ => true) 7 = none ∧
    ((HwcBufferCache.initial 2).getHwcBuffer (fun _ => true) 7).2.2 = some 7 :=
  ⟨by decide, by decide,
    (C1_miss_selects_lru_slot (HwcBufferCache.initial 2) (fun _ => true) 7
      (by decide) (by decide)).1⟩

/-- Witness for C2: after booking buffer 7 into slot 0, resolving 7 again
hits slot 0 with no payload. -/
theorem C2_witness :
    (((HwcBufferCache.initial 2).getHwcBuffer (fun _ => true) 7).1.getHwcBuffer
        (fun _ => true) 7).2.1 = 0 ∧
    (((HwcBufferCache.initial 2).getHwcBuffer (fun _ => true) 7).1.getHwcBuffer
        (fun _ => true) 7).2.2 = none := by
  have T := C2_hit_returns_same_slot
    ((HwcBufferCache.initial 2).getHwcBuffer (fun _ => true) 7).1 (fun _ => true) 7 0
    (by decide) (by decide) (by decide) (by decide)
  exact ⟨T.1, T.2.1⟩

/-- Witness for C4: two distinct buffers on a two-slot cache get distinct
slots. -/
theorem C4_witness :
    ((HwcBufferCache.runResolve (fun _ => true) (HwcBufferCache.initial 2) [5, 7]).2.map
      Prod.fst).Nodup :=
  (C4_capacity_no_eviction 2 (fun _ => true) [5, 7] (by decide) (by decide) (by decide)).1

/-- Witness for C5: after a hit refreshes slot 0, the next eviction scan does
not pick slot 0. -/
theorem C5_witness :
    (((HwcBufferCache.initial 2).getHwcBuffer (fun _ => true) 7).1.getHwcBuffer
        (fun _ => true) 7).1.getLeastRecentlyUsedSlot ≠ 0 :=
  (C5_hit_refreshes_to_maximum 2 ((HwcBufferCache.initial 2).getHwcBuffer (fun _ => true) 7).1
    (fun _ => true) 7 0 (Reachable.step Reachable.init rfl) (by decide)).2 (by decide)

/-- Witness for C6: once buffer 7 dies, the slot holding it matches no
query. -/
theorem C6_witness :
    ((HwcBufferCache.initial 2).getHwcBuffer (fun _ => true) 7).1.getSlot
      (fun x => x != 7) 9 ≠ some 0 :=
  (C6_stale_slot_unmatchable_but_evictable
    ((HwcBufferCache.initial 2).getHwcBuffer (fun _ => true) 7).1 (fun x => x != 7) 0 7
    (by decide) (by decide) (by decide)).1 9

/-- Witness for C7: a resolve on a two-slot cache returns a slot index below
the capacity. -/
theorem C7_witness :
    ((HwcBufferCache.initial 2).getHwcBuffer (fun _ => true) 7).2.1
      < (HwcBufferCache.initial 2).mBuffers.length :=
  (C7_resolve_total (HwcBufferCache.initial 2) (fun _ => true) 7 (by decide)).1

/-- Witness for C8: booking a buffer into slot 0 leaves slot 1 untouched. -/
theorem C8_witness :
    ((HwcBufferCache.initial 2).getHwcBuffer (fun _ => true) 7).1.mBuffers.getD 1 default
      = (HwcBufferCache.initial 2).mBuffers.getD 1 default :=
  (C8_frame_effect (HwcBufferCache.initial 2) (fun _ => true) 7 1 (by decide) (by decide)).1

/-- Witness for C9: after one resolve, buffer 7 is not booked into both
slots of a two-slot cache. -/
theorem C9_witness :
    ¬((((HwcBufferCache.initial 2).getHwcBuffer (fun _ => true) 7).1.mBuffers.getD 0
        default).ref = some 7 ∧
      (((HwcBufferCache.initial 2).getHwcBuffer (fun _ => true) 7).1.mBuffers.getD 1
        default).ref = some 7) :=
  C9_no_double_booking 2 ((HwcBufferCache.initial 2).getHwcBuffer (fun _ => true) 7).1
    (Reachable.step Reachable.init rfl) 0 1 (by decide) (by decide) (by decide) 7

/-- Witness for C10: three distinct buffers fill a fresh three-slot cache in
slot order 0, 1, 2. -/
theorem C10_witness :
    (HwcBufferCache.runResolve (fun _ => true) (HwcBufferCache.initial 3) [4, 5, 6]).2
      = (List.range 3).zip ([4, 5, 6].map some) :=
  (C10_fresh_cache_fill_order 3 (fun _ => true) [4, 5, 6]).2.2 (by decide) (by decide)
    (by decide)
